import Mathlib

/-!
Verification of the resume-parser pipeline (src/resume.py) against its
natural-language specification.  The Python source is shallowly embedded:
text is `List Char`, each regular expression is realized by a small
backtracking matcher (candidate match lengths in Python `re` preference
order), and every parser is a total Lean function mirroring the source
line by line.
-/

namespace Resume

abbrev Chars := List Char

/-- Shorthand turning a string literal into the character-list text model. -/
def str (s : String) : Chars := s.toList

/-- Shorthand for a list of literal strings. -/
def lits (ss : List String) : List Chars := ss.map (fun s => s.toList)

/-- Case-insensitive character equality (ASCII lowering), used for `re.I` matching. -/
def ciEq (a b : Char) : Bool := a.toLower == b.toLower

/-- Case-insensitive test that `pat` begins the text. -/
def ciPre : Chars → Chars → Bool
  | [], _ => true
  | _ :: _, [] => false
  | p :: ps, c :: cs => ciEq p c && ciPre ps cs

/-- Case-sensitive test that `pat` begins the text. -/
def exPre : Chars → Chars → Bool
  | [], _ => true
  | _ :: _, [] => false
  | p :: ps, c :: cs => (p == c) && exPre ps cs

/-- re.search of a plain literal with re.I: case-insensitive substring containment. -/
def containsCI (pat : Chars) : Chars → Bool
  | [] => ciPre pat []
  | c :: cs => ciPre pat (c :: cs) || containsCI pat cs

/-- re.search of a plain literal without flags: case-sensitive substring containment. -/
def containsEx (pat : Chars) : Chars → Bool
  | [] => exPre pat []
  | c :: cs => exPre pat (c :: cs) || containsEx pat cs

/-- re.search of an alternation of plain literals, with re.I. -/
def containsAnyCI (pats : List Chars) (cs : Chars) : Bool := pats.any (fun p => containsCI p cs)

/-- re.search of an alternation of plain literals, case-sensitive. -/
def containsAnyEx (pats : List Chars) (cs : Chars) : Bool := pats.any (fun p => containsEx p cs)

/-- Python regex `\s` (ASCII part: space, tab, newline, carriage return, vtab, form feed). -/
def isReWS (c : Char) : Bool :=
  c == ' ' || c == '\t' || c == '\n' || c == '\r' || c == '\x0b' || c == '\x0c'

/-- Python `str.strip` default whitespace (ASCII whitespace plus NEL and NBSP). -/
def isPyWS (c : Char) : Bool := isReWS c || c == '\x85' || c == '\xa0'

/-- Python `str.lstrip`. -/
def lstripL (cs : Chars) : Chars := cs.dropWhile isPyWS

/-- Python `str.rstrip`. -/
def rstripL (cs : Chars) : Chars := (cs.reverse.dropWhile isPyWS).reverse

/-- Python `str.strip`. -/
def stripL (cs : Chars) : Chars := rstripL (lstripL cs)

/-- Word character for regex `\b` boundaries. -/
def isWordC (c : Char) : Bool := c.isAlphanum || c == '_'

/-- Python `text.split("\n")`: split at every newline, keeping empty pieces. -/
def splitNL : Chars → List Chars
  | [] => [[]]
  | c :: rest =>
    match splitNL rest with
    | [] => [[c]]
    | h :: t => if c == '\n' then [] :: h :: t else (c :: h) :: t

/-- re.split on a single-character class (no `+`): split at every class character. -/
def splitAnyChar (p : Char → Bool) : Chars → List Chars
  | [] => [[]]
  | c :: rest =>
    match splitAnyChar p rest with
    | [] => [[c]]
    | h :: t => if p c then [] :: h :: t else (c :: h) :: t

/-- Worker for `splitRuns`; the fuel only needs to be at least the text length. -/
def splitRunsGo (p : Char → Bool) : Nat → Chars → Chars → List Chars
  | _, acc, [] => [acc.reverse]
  | 0, acc, rest => [acc.reverse ++ rest]
  | fuel + 1, acc, c :: rest =>
    if p c then acc.reverse :: splitRunsGo p fuel [] (rest.dropWhile p)
    else splitRunsGo p fuel (c :: acc) rest

/-- re.split on `class+`: split at every maximal nonempty run of class characters. -/
def splitRuns (p : Char → Bool) (cs : Chars) : List Chars := splitRunsGo p cs.length [] cs

/-- get_lines from the source: stripped nonempty lines.  (Line separation is modelled on the
newline character; the strip-and-drop-empty filter makes this agree with Python splitlines
for the texts at issue.) -/
def get_lines (t : Chars) : List Chars :=
  (splitNL t).filterMap (fun ln => let s := stripL ln; if s.isEmpty then none else some s)

/-! ### Regex matchers

A matcher maps a text to the candidate match lengths at its start, listed in Python `re`
backtracking preference order (greedy alternatives first).  `re.search` scans start
positions left to right and commits to the first candidate at the first viable position,
exactly as the Python engine does. -/

abbrev Matcher := Chars → List Nat

/-- One character from a class. -/
def mCls (p : Char → Bool) : Matcher := fun cs =>
  match cs with
  | [] => []
  | c :: _ => if p c then [1] else []

/-- A literal, case-insensitively when `ci` is true. -/
def mLit (lit : Chars) (ci : Bool) : Matcher := fun cs =>
  if (if ci then ciPre lit cs else exPre lit cs) then [lit.length] else []

/-- Sequencing; preference is lexicographic with the first component dominant. -/
def mSeq (a b : Matcher) : Matcher := fun cs =>
  (a cs).flatMap (fun n => (b (cs.drop n)).map (fun k => n + k))

/-- Alternation; the left branch is preferred. -/
def mAlt (a b : Matcher) : Matcher := fun cs => a cs ++ b cs

/-- Alternation over a list of matchers, in order. -/
def mAltL (ms : List Matcher) : Matcher := fun cs => ms.flatMap (fun m => m cs)

/-- Greedy option `a?`. -/
def mOpt (a : Matcher) : Matcher := fun cs => a cs ++ [0]

/-- The list `[s, s-1, ...]` with `n` entries. -/
def descFrom : Nat → Nat → List Nat
  | 0, _ => []
  | n + 1, s => s :: descFrom n (s - 1)

/-- Greedy class repetition `p{lo,}`: the run length down to `lo`. -/
def mClsGe (p : Char → Bool) (lo : Nat) : Matcher := fun cs =>
  let r := (cs.takeWhile p).length
  descFrom (r + 1 - lo) r

/-- Greedy bounded class repetition `p{lo,hi}`. -/
def mClsBw (p : Char → Bool) (lo hi : Nat) : Matcher := fun cs =>
  let r := min (cs.takeWhile p).length hi
  descFrom (r + 1 - lo) r

/-- Greedy bounded group repetition `a{lo,hi}`, the fuel being `hi`.  Candidates with more
repetitions come first; stopping is offered once the minimum is met. -/
def mRepGo (a : Matcher) : Nat → Nat → Matcher
  | lo, 0, _ => if lo == 0 then [0] else []
  | lo, fuel + 1, cs =>
    ((a cs).flatMap (fun n =>
      if n == 0 then [] else (mRepGo a (lo - 1) fuel (cs.drop n)).map (fun k => n + k)))
    ++ (if lo == 0 then [0] else [])

/-- Greedy bounded group repetition `a{lo,hi}`. -/
def mRep (a : Matcher) (lo hi : Nat) : Matcher := mRepGo a lo hi

/-- Scan worker for `reSearch`; `i` is the index of the current suffix. -/
def searchGo (m : Matcher) : Chars → Nat → Option (Nat × Nat)
  | [], i => match m [] with | n :: _ => some (i, n) | [] => none
  | c :: rest, i =>
    match m (c :: rest) with
    | n :: _ => some (i, n)
    | [] => searchGo m rest (i + 1)

/-- re.search: the (start, length) of the leftmost preferred match, if any. -/
def reSearch (m : Matcher) (cs : Chars) : Option (Nat × Nat) := searchGo m cs 0

/-- The text of a search result. -/
def extractM (cs : Chars) (r : Nat × Nat) : Chars := (cs.drop r.1).take r.2

/-- re.search returning the matched text (`group(0)`). -/
def searchStr (m : Matcher) (cs : Chars) : Option Chars := (reSearch m cs).map (extractM cs)

/-! ### The pattern library of the source -/

/-- Email local-part class `[A-Za-z0-9._%+-]`. -/
def isLocalC (c : Char) : Bool :=
  c.isAlphanum || c == '.' || c == '_' || c == '%' || c == '+' || c == '-'

/-- Email domain class `[A-Za-z0-9.-]`. -/
def isDomainC (c : Char) : Bool := c.isAlphanum || c == '.' || c == '-'

/-- ASCII letter class `[A-Za-z]`. -/
def isAlphaC (c : Char) : Bool := c.isAlpha

/-- Email pattern `[A-Za-z0-9._%+-]+@[A-Za-z0-9.-]+\.[A-Za-z]{2,}`. -/
def emailM : Matcher :=
  mSeq (mClsGe isLocalC 1) (mSeq (mCls (fun c => c == '@'))
    (mSeq (mClsGe isDomainC 1) (mSeq (mCls (fun c => c == '.')) (mClsGe isAlphaC 2))))

/-- Phone separator class `[\s-]`. -/
def phoneSepC (c : Char) : Bool := isReWS c || c == '-'

/-- The optional `\+\d{1,3}\s*` country-code part of the phone pattern. -/
def phonePlus : Matcher :=
  mSeq (mCls (fun c => c == '+')) (mSeq (mClsBw Char.isDigit 1 3) (mClsGe isReWS 0))

/-- One repetition `\d[\s-]?` of the phone core. -/
def phoneGrpM : Matcher := mSeq (mCls Char.isDigit) (mOpt (mCls phoneSepC))

/-- Phone pattern `(?:\+\d{1,3}\s*)?(?:\d[\s-]?){9,12}`. -/
def phoneM : Matcher := mSeq (mOpt phonePlus) (mRep phoneGrpM 9 12)

/-- A digit with its optional separator, the building block of a phone-number run. -/
def phoneGroup (g : Char × Option Char) : Chars :=
  match g.2 with
  | none => [g.1]
  | some s => [g.1, s]

/-- Well-formedness of a phone-run building block: a digit, and the separator (when present)
drawn from the `[\s-]` class. -/
def PhoneGroupOk (g : Char × Option Char) : Prop :=
  g.1.isDigit = true ∧ g.2.all phoneSepC = true

instance (g : Char × Option Char) : Decidable (PhoneGroupOk g) :=
  inferInstanceAs (Decidable (g.1.isDigit = true ∧ g.2.all phoneSepC = true))

/-- Non-whitespace class `[^\s]`. -/
def notWSC (c : Char) : Bool := !(isReWS c)

/-- LinkedIn URL pattern `https?://[^\s]+linkedin[^\s]+`, with re.I. -/
def linkedinM : Matcher :=
  mSeq (mLit (str "http") true) (mSeq (mOpt (mCls (fun c => ciEq c 's')))
    (mSeq (mLit (str "://") true) (mSeq (mClsGe notWSC 1)
      (mSeq (mLit (str "linkedin") true) (mClsGe notWSC 1)))))

/-- Behance URL pattern `https?://[^\s]*behance[^\s]+`, with re.I. -/
def behanceM : Matcher :=
  mSeq (mLit (str "http") true) (mSeq (mOpt (mCls (fun c => ciEq c 's')))
    (mSeq (mLit (str "://") true) (mSeq (mClsGe notWSC 0)
      (mSeq (mLit (str "behance") true) (mClsGe notWSC 1)))))

/-- One `Stem(?:Tail)?` month alternative of the MONTHS pattern. -/
def monthAlt (stem tail : String) : Matcher := mSeq (mLit (str stem) true) (mOpt (mLit (str tail) true))

/-- The `Sep(?:t(?:ember)?)?` month alternative. -/
def monthSep : Matcher :=
  mSeq (mLit (str "Sep") true) (mOpt (mSeq (mLit (str "t") true) (mOpt (mLit (str "ember") true))))

/-- The MONTHS alternation from the source, in source order. -/
def monthsM : Matcher :=
  mAltL [monthAlt "Jan" "uary", monthAlt "Feb" "ruary", monthAlt "Mar" "ch",
    monthAlt "Apr" "il", mLit (str "May") true, monthAlt "Jun" "e", monthAlt "Jul" "y",
    monthAlt "Aug" "ust", monthSep, monthAlt "Oct" "ober", monthAlt "Nov" "ember",
    monthAlt "Dec" "ember"]

/-- `\s+\d{4}`, the tail of a month-year token. -/
def mdTail : Matcher := mSeq (mClsGe isReWS 1) (mClsBw Char.isDigit 4 4)

/-- `MONTHS\s+\d{4}`. -/
def monthDateM : Matcher := mSeq monthsM mdTail

/-- The literal `Present`, with re.I. -/
def presentM : Matcher := mLit (str "Present") true

/-- The separator class `[-to]` of the date-range pattern (case-sensitive). -/
def isTOC (c : Char) : Bool := c == '-' || c == 't' || c == 'o'

/-- The explicit range pattern `MONTHS\s+\d{4}\s*[-to]+\s*(?:MONTHS\s+\d{4}|Present)`. -/
def dateRangeM : Matcher :=
  mSeq monthDateM (mSeq (mClsGe isReWS 0) (mSeq (mClsGe isTOC 1)
    (mSeq (mClsGe isReWS 0) (mAlt monthDateM presentM))))

/-- First viable (month length, whole length) of `MONTHS\s+\d{4}` at this position, in
backtracking preference order. -/
def tryMonthDate (cs : Chars) : Option (Nat × Nat) :=
  (monthsM cs).findSome? (fun n =>
    match mdTail (cs.drop n) with
    | k :: _ => some (n, n + k)
    | [] => none)

/-- Worker for `findallMY`; the fuel only needs to be at least the text length. -/
def findallMYGo : Nat → Chars → List Chars
  | 0, _ => []
  | _, [] => []
  | fuel + 1, cs@(_ :: rest) =>
    match tryMonthDate cs with
    | some (n, tot) => cs.take n :: findallMYGo fuel (cs.drop tot)
    | none =>
      if ciPre (str "Present") cs then [] :: findallMYGo fuel (cs.drop 7)
      else findallMYGo fuel rest

/-- `re.findall(MONTHS\s+\d{4}|Present, s, re.I)` with Python group semantics: the pattern
carries one capturing group (the month name), so each hit contributes the month text alone,
and a bare `Present` hit contributes the empty string. -/
def findallMY (cs : Chars) : List Chars := findallMYGo cs.length cs

/-- A word-bounded `19xx`/`20xx` year at the current position; `prevW` says whether the
preceding character was a word character. -/
def yearAt (prevW : Bool) (cs : Chars) : Option Chars :=
  match cs with
  | a :: b :: c :: d :: rest =>
    if !prevW && ((a == '1' && b == '9') || (a == '2' && b == '0')) && c.isDigit && d.isDigit
        && (match rest with | [] => true | e :: _ => !isWordC e) then
      some [a, b, c, d]
    else none
  | _ => none

/-- Worker for `findallYears`; the fuel only needs to be at least the text length. -/
def findallYearsGo : Nat → Bool → Chars → List Chars
  | 0, _, _ => []
  | _, _, [] => []
  | fuel + 1, prevW, cs@(c :: rest) =>
    match yearAt prevW cs with
    | some y => y :: findallYearsGo fuel true (cs.drop 4)
    | none => findallYearsGo fuel (isWordC c) rest

/-- `re.findall(r"\b(?:19|20)\d{2}\b")`, the year-token scan of the education parser. -/
def findallYears (cs : Chars) : List Chars := findallYearsGo cs.length false cs

/-! ### Personal details (extract_personal_details) -/

structure Links where
  linkedin : Option Chars
  behance : Option Chars
deriving DecidableEq

structure PersonalDetails where
  name : Option Chars
  email : Option Chars
  phone : Option Chars
  links : Links
deriving DecidableEq

/-- The name heuristic of the source: short line with a letter and none of `@`, `www`, `http`. -/
def nameOk (ln : Chars) : Bool :=
  ln.length < 40 && ln.any (fun c => c.isAlpha) && !(containsAnyEx (lits ["@", "www", "http"]) ln)

/-- extract_personal_details from the source. -/
def extract_personal_details (t : Chars) : PersonalDetails :=
  { name := ((get_lines t).take 10).find? nameOk
  , email := searchStr emailM t
  , phone := (searchStr phoneM t).map stripL
  , links := { linkedin := searchStr linkedinM t, behance := searchStr behanceM t } }

/-! ### Section segmentation, shared by the three section parsers -/

/-- The scanning skeleton common to parse_education, parse_experience and parse_skills: a line
matching `isHead` switches capture on and is itself skipped (also when capture is already on);
once capturing, the first line matching `isBreak` (and not `isHead`) stops the scan and is not
included; every other line seen while capturing joins the block. -/
def sectionLoop (isHead isBreak : Chars → Bool) : Bool → List Chars → List Chars
  | _, [] => []
  | capture, ln :: rest =>
    if isHead ln then sectionLoop isHead isBreak true rest
    else if capture && isBreak ln then []
    else if capture then ln :: sectionLoop isHead isBreak true rest
    else sectionLoop isHead isBreak false rest

/-- The block of lines captured for a section. -/
def sectionBlock (isHead isBreak : Chars → Bool) (lines : List Chars) : List Chars :=
  sectionLoop isHead isBreak false lines

/-- Education section heading: `re.search(r"education", ln, re.I)`. -/
def eduHead (ln : Chars) : Bool := containsCI (str "education") ln

/-- Education section terminator keywords. -/
def eduBreak (ln : Chars) : Bool :=
  containsAnyCI (lits ["work experience", "skills", "objective", "references"]) ln

/-- Experience section heading keywords. -/
def expHead (ln : Chars) : Bool :=
  containsAnyCI (lits ["work experience", "professional experience"]) ln

/-- Experience section terminator keywords. -/
def expBreak (ln : Chars) : Bool :=
  containsAnyCI (lits ["education", "skills", "objective", "references"]) ln

/-- Skills section heading keywords. -/
def skillHead (ln : Chars) : Bool := containsAnyCI (lits ["skills", "toolkit", "languages"]) ln

/-- Skills section terminator keywords. -/
def skillBreak (ln : Chars) : Bool :=
  containsAnyCI (lits ["experience", "education", "objective", "references"]) ln

/-! ### Education parser -/

structure EduEntry where
  details : Chars
  start_year : Option Chars
  end_year : Option Chars
deriving DecidableEq

/-- The degree / institution keyword alternation of parse_education. -/
def degreeLits : List Chars :=
  lits ["Diploma", "Degree", "Course", "Certificate", "SSLC", "PUC", "B.", "M."]

/-- The loop body of parse_education on one captured line: the keyword-or-year guard, then the
entry with the first two year tokens (a single year goes to end_year, as in the source). -/
def eduEntryOf (ln : Chars) : Option EduEntry :=
  if containsAnyCI degreeLits ln || !(findallYears ln).isEmpty then
    match findallYears ln with
    | y1 :: y2 :: _ => some ⟨stripL ln, some y1, some y2⟩
    | [y1] => some ⟨stripL ln, none, some y1⟩
    | [] => some ⟨stripL ln, none, none⟩
  else none

/-- parse_education from the source. -/
def parse_education (t : Chars) : List EduEntry :=
  (sectionBlock eduHead eduBreak (get_lines t)).filterMap eduEntryOf

/-- The displayed years field described by the spec (section 4.5): both bounds joined with
`" - "`, a single bound alone, or absent.  It is a view of the entry's year fields. -/
def yearsField (e : EduEntry) : Option Chars :=
  match e.start_year, e.end_year with
  | some a, some b => some (a ++ str " - " ++ b)
  | some a, none => some a
  | none, some b => some b
  | none, none => none

/-! ### Experience parser -/

/-- The dash substitutions at the top of find_date_range. -/
def dashFix (cs : Chars) : Chars := cs.map (fun c => if c == '–' || c == '—' then '-' else c)

/-- The fallback of find_date_range: the first two findall tokens, one token as start only,
or no bounds at all. -/
def fdrFallback (s : Chars) : Option Chars × Option Chars :=
  match findallMY s with
  | a :: b :: _ => (some a, some b)
  | [a] => (some a, none)
  | [] => (none, none)

/-- find_date_range from the source: search the explicit range pattern; if found, re.split its
text on `[-to]+` and use the two pieces when there are exactly two; otherwise fall back to the
findall token scan. -/
def find_date_range (s0 : Chars) : Option Chars × Option Chars :=
  let s := dashFix s0
  match reSearch dateRangeM s with
  | some r =>
    match splitRuns isTOC (extractM s r) with
    | [p0, p1] => (some (stripL p0), some (stripL p1))
    | _ => fdrFallback s
  | none => fdrFallback s

structure ExpEntry where
  company : Option Chars
  role : Option Chars
  start_date : Option Chars
  end_date : Option Chars
  details : Chars
deriving DecidableEq

/-- The role pattern of parse_experience (note: no `Software Engineer` alternative). -/
def roleLits : List Chars :=
  lits ["Stress Engineer", "Design Engineer", "UI/UX Designer", "Graphic Designer",
    "Developer", "Manager"]

/-- The role matcher, re.I. -/
def roleM : Matcher := mAltL (roleLits.map (fun l => mLit l true))

/-- The company vocabulary of parse_experience. -/
def companyLits : List Chars :=
  lits ["Capgemini", "Quest Global", "TCS", "Infosys", "Wipro", "Accenture", "Cognizant"]

/-- The company matcher, re.I. -/
def companyM : Matcher := mAltL (companyLits.map (fun l => mLit l true))

/-- The role/title keywords of the lookahead split in parse_experience. -/
def splitKws : List Chars :=
  lits ["Stress Engineer", "Design Engineer", "Software Engineer", "UI/UX Designer",
    "Developer", "Manager"]

/-- Does some keyword match (case-insensitively) at the start of the text? -/
def kwAt (kws : List Chars) (cs : Chars) : Bool := kws.any (fun k => ciPre k cs)

/-- Worker for `splitLA`: a new piece starts at every position where a keyword matches. -/
def splitLAGo (kws : List Chars) : Chars → Chars → List Chars
  | acc, [] => [acc.reverse]
  | acc, c :: rest =>
    if kwAt kws (c :: rest) then acc.reverse :: splitLAGo kws [c] rest
    else splitLAGo kws (c :: acc) rest

/-- `re.split((?=kw1|kw2|...), s, re.I)`: split before every keyword occurrence; a keyword at
position 0 contributes a leading empty piece, as in Python. -/
def splitLA (kws : List Chars) (cs : Chars) : List Chars := splitLAGo kws [] cs

/-- Python `" ".join(...)` over the block lines. -/
def joinSp : List Chars → Chars
  | [] => []
  | [x] => x
  | x :: y :: rest => x ++ ' ' :: joinSp (y :: rest)

/-- The captured experience block: stripped nonempty lines between the heading and the break. -/
def expBlock (t : Chars) : List Chars :=
  (sectionBlock expHead expBreak (splitNL t)).filterMap
    (fun ln => let s := stripL ln; if s.isEmpty then none else some s)

/-- The per-segment body of parse_experience: strip, drop blank segments, then build the entry
from the date-range, role and company matchers over the stripped segment. -/
def expEntryOf (job0 : Chars) : Option ExpEntry :=
  let job := stripL job0
  if job.isEmpty then none
  else
    some { company := searchStr companyM job
         , role := searchStr roleM job
         , start_date := (find_date_range job).1
         , end_date := (find_date_range job).2
         , details := job }

/-- parse_experience from the source. -/
def parse_experience (t : Chars) : List ExpEntry :=
  let block := expBlock t
  if block.isEmpty then []
  else (splitLA splitKws (joinSp block)).filterMap expEntryOf

/-! ### Skills parser -/

/-- The skill delimiter class `[,/|;•\-]`. -/
def skillDelimC (c : Char) : Bool :=
  c == ',' || c == '/' || c == '|' || c == ';' || c == '•' || c == '-'

/-- The raw skill tokens, in order of appearance: captured skill-section lines split on the
delimiter class, each piece stripped, blanks dropped. -/
def skillTokens (t : Chars) : List Chars :=
  (sectionBlock skillHead skillBreak (splitNL t)).flatMap
    (fun ln => (splitAnyChar skillDelimC ln).filterMap
      (fun p => let s := stripL p; if s.isEmpty then none else some s))

/-- Worker for `dedupKeepFirst`, carrying the set of already-kept tokens. -/
def dedupGo : List Chars → List Chars → List Chars
  | _, [] => []
  | seen, x :: xs => if x ∈ seen then dedupGo seen xs else x :: dedupGo (x :: seen) xs

/-- Python `list(dict.fromkeys(...))`: order-preserving, case-sensitive de-duplication. -/
def dedupKeepFirst (xs : List Chars) : List Chars := dedupGo [] xs

/-- parse_skills from the source. -/
def parse_skills (t : Chars) : List Chars := dedupKeepFirst (skillTokens t)

/-! ### Assembly -/

structure ResumeJson where
  personal_details : PersonalDetails
  education : List EduEntry
  work_experience : List ExpEntry
  skills : List Chars
deriving DecidableEq

/-- Modelled from the spec: the source's build_resume_json calls parse_experience_blocks,
which is nowhere defined in the repository file.  Per the spec (sections 4.6 and 4.8) the
work_experience field is produced by the experience-parser component over the same text,
which the source realizes as parse_experience. -/
def parse_experience_blocks (t : Chars) : List ExpEntry := parse_experience t

/-- build_resume_json from the source. -/
def build_resume_json (t : Chars) : ResumeJson :=
  { personal_details := extract_personal_details t
  , education := parse_education t
  , work_experience := parse_experience_blocks t
  , skills := parse_skills t }

/-! ### Text normalization (the cleanup steps of extract_text_from_pdf) -/

/-- The glyph substitution table, in source order; each key is a single character.  The
`` key appears twice in the source dictionary literal with the same value, which the
sequential replacements below reproduce harmlessly. -/
def repls : List (Char × Chars) :=
  [('', [' ']), ('•', [' ']), ('', [' ']), ('', [' ']),
   ('–', ['-']), ('—', ['-']), ('\xa0', [' ']), ('​', [])]

/-- Python `text.replace(k, v)` for a single-character key. -/
def replaceOne (k : Char) (v : Chars) (cs : Chars) : Chars :=
  cs.flatMap (fun c => if c == k then v else [c])

/-- Sequential application of a replacement table. -/
def applyList : List (Char × Chars) → Chars → Chars
  | [], cs => cs
  | (k, v) :: ps, cs => applyList ps (replaceOne k v cs)

/-- The glyph-substitution pass of the normalizer. -/
def applyRepls (cs : Chars) : Chars := applyList repls cs

/-- Horizontal whitespace `[ \t]`. -/
def isHWS (c : Char) : Bool := c == ' ' || c == '\t'

/-- Worker for `collapseSp`; the flag records whether the previous character was `[ \t]`. -/
def collapseSpGo : Bool → Chars → Chars
  | _, [] => []
  | inRun, c :: cs =>
    if isHWS c then (if inRun then collapseSpGo true cs else ' ' :: collapseSpGo true cs)
    else c :: collapseSpGo false cs

/-- `re.sub(r"[ \t]+", " ")`: each maximal horizontal-whitespace run becomes one space. -/
def collapseSp (cs : Chars) : Chars := collapseSpGo false cs

/-- Worker for `collapseNL`; `k` counts the immediately preceding consecutive newlines, and a
newline is kept only while fewer than two of its run have been kept. -/
def collapseNLGo : Nat → Chars → Chars
  | _, [] => []
  | k, c :: cs =>
    if c == '\n' then
      (if k < 2 then '\n' :: collapseNLGo (k + 1) cs else collapseNLGo (k + 1) cs)
    else c :: collapseNLGo 0 cs

/-- `re.sub(r"\n{3,}", "\n\n")`: every newline run of length at least 3 becomes exactly 2. -/
def collapseNL (cs : Chars) : Chars := collapseNLGo 0 cs

/-- The normalization steps of extract_text_from_pdf, after the external PDF text extraction:
glyph substitution, horizontal-whitespace collapsing, blank-line collapsing, strip. -/
def normalize (cs : Chars) : Chars := stripL (collapseNL (collapseSp (applyRepls cs)))

/-- Checker for collapsed horizontal whitespace: no tab, and no horizontal-whitespace
character directly after another; the flag records whether the previous character was
horizontal whitespace. -/
def spacesOkGo : Bool → Chars → Bool
  | _, [] => true
  | prevW, c :: cs =>
    if c == '\t' then false
    else if c == ' ' then (if prevW then false else spacesOkGo true cs)
    else spacesOkGo false cs

/-- Checker for collapsed blank lines: no run of three or more consecutive newlines; `k`
counts the current run length so far. -/
def nlOkGo : Nat → Chars → Bool
  | _, [] => true
  | k, c :: cs => if c == '\n' then (if 2 ≤ k then false else nlOkGo (k + 1) cs) else nlOkGo 0 cs

/-! ## Helper lemmas -/

theorem dedupGo_mem (y : Chars) :
    ∀ (xs seen : List Chars), y ∈ dedupGo seen xs ↔ y ∈ xs ∧ y ∉ seen := by
  intro xs
  induction xs with
  | nil => intro seen; simp [dedupGo]
  | cons x xs ih =>
    intro seen
    by_cases hx : x ∈ seen
    · rw [dedupGo, if_pos hx, ih]
      constructor
      · rintro ⟨h1, h2⟩; exact ⟨List.mem_cons_of_mem _ h1, h2⟩
      · rintro ⟨h1, h2⟩
        rcases List.mem_cons.mp h1 with h | h
        · exact absurd (h ▸ hx) h2
        · exact ⟨h, h2⟩
    · rw [dedupGo, if_neg hx]
      constructor
      · intro h
        rcases List.mem_cons.mp h with h | h
        · exact ⟨h ▸ List.mem_cons_self x xs, h ▸ hx⟩
        · rcases (ih _).mp h with ⟨h1, h2⟩
          exact ⟨List.mem_cons_of_mem _ h1, fun hc => h2 (List.mem_cons_of_mem _ hc)⟩
      · rintro ⟨h1, h2⟩
        rcases List.mem_cons.mp h1 with h | h
        · exact h ▸ List.mem_cons_self x (dedupGo (x :: seen) xs)
        · by_cases hyx : y = x
          · exact hyx ▸ List.mem_cons_self x (dedupGo (x :: seen) xs)
          · refine List.mem_cons_of_mem _ ((ih _).mpr ⟨h, fun hc => ?_⟩)
            rcases List.mem_cons.mp hc with h' | h'
            · exact hyx h'
            · exact h2 h'

theorem dedupGo_sublist : ∀ (xs seen : List Chars), (dedupGo seen xs).Sublist xs := by
  intro xs
  induction xs with
  | nil => intro seen; simp [dedupGo]
  | cons x xs ih =>
    intro seen
    by_cases hx : x ∈ seen
    · rw [dedupGo, if_pos hx]
      exact (ih seen).cons x
    · rw [dedupGo, if_neg hx]
      exact (ih (x :: seen)).cons₂ x

theorem dedupGo_nodup : ∀ (xs seen : List Chars), (dedupGo seen xs).Nodup := by
  intro xs
  induction xs with
  | nil => intro seen; simp [dedupGo]
  | cons x xs ih =>
    intro seen
    by_cases hx : x ∈ seen
    · rw [dedupGo, if_pos hx]; exact ih seen
    · rw [dedupGo, if_neg hx]
      refine List.nodup_cons.mpr ⟨fun hc => ?_, ih (x :: seen)⟩
      exact ((dedupGo_mem x xs (x :: seen)).mp hc).2 (List.mem_cons_self x seen)

theorem sectionLoop_skip (isHead isBreak : Chars → Bool) (pre rest : List Chars)
    (hpre : ∀ l ∈ pre, isHead l = false) :
    sectionLoop isHead isBreak false (pre ++ rest) = sectionLoop isHead isBreak false rest := by
  induction pre with
  | nil => rfl
  | cons a pre ih =>
    have ha : isHead a = false := hpre a (List.mem_cons_self a pre)
    rw [List.cons_append, sectionLoop, ha]
    simp only [Bool.false_eq_true, if_false, Bool.false_and]
    exact ih (fun l hl => hpre l (List.mem_cons_of_mem a hl))

theorem sectionLoop_capture (isHead isBreak : Chars → Bool) (t : Chars) (post : List Chars)
    (ht : isBreak t = true) (hth : isHead t = false) :
    ∀ mid : List Chars, (∀ l ∈ mid, isBreak l = false) →
      sectionLoop isHead isBreak true (mid ++ t :: post) = mid.filter (fun l => !isHead l) := by
  intro mid
  induction mid with
  | nil =>
    intro _
    rw [List.nil_append, sectionLoop, hth, ht]
    simp
  | cons a mid ih =>
    intro hmid
    have ha : isBreak a = false := hmid a (List.mem_cons_self a mid)
    have hrest := ih (fun l hl => hmid l (List.mem_cons_of_mem a hl))
    by_cases hah : isHead a = true
    · rw [List.cons_append, sectionLoop, hah]
      simp only [if_true, hrest, List.filter_cons, hah]
      simp
    · have hah' : isHead a = false := by
        cases h : isHead a
        · rfl
        · exact absurd h hah
      rw [List.cons_append, sectionLoop, hah', ha]
      simp only [Bool.false_eq_true, if_false, Bool.true_and, if_true, hrest,
        List.filter_cons, hah']
      simp

/-! ## Claim C1: empty input yields the all-absent, all-empty record, and the assembly is a
total function (it is defined for every input text by construction, so no run can raise). -/

/-- C1: build_resume_json on empty text returns a record whose optional fields are all
absent and whose list fields are all empty. -/
theorem c1_empty_input_defaults :
    build_resume_json [] =
      { personal_details :=
          { name := none, email := none, phone := none
          , links := { linkedin := none, behance := none } }
      , education := [], work_experience := [], skills := [] } := by
  decide

/-! ## Claim C2: the end-to-end scenario.  The code's actual output disagrees with the
claim on the experience entry: the role is absent (the role pattern lacks a
`Software Engineer` alternative) and the date bounds are `"Jan"` and `""` (the `[-to]+`
split of `"Jan 2020 - Present"` produces three pieces because of the `t` in `Present`,
and the findall fallback returns the captured month group, which is empty for a bare
`Present`).  This theorem evaluates the embedded pipeline at the scenario text. -/

set_option maxRecDepth 100000 in
/-- C2: the pipeline's actual output on the end-to-end scenario text.  Email, phone, name,
education entry, company and skills agree with the claim; the experience role is `none`
rather than `Software Engineer`, and the date bounds are `"Jan"` and `""` rather than
`"Jan 2020"` and `"Present"`. -/
theorem c2_end_to_end_actual :
    build_resume_json (str "John Doe\njohn@x.com\n+1 555-123-4567\nEDUCATION\nB.Tech Computer Science, ABC University 2015 2019\nWORK EXPERIENCE\nSoftware Engineer at TCS Jan 2020 - Present\nSKILLS\nPython, SQL") =
      { personal_details :=
          { name := some (str "John Doe"), email := some (str "john@x.com")
          , phone := some (str "+1 555-123-4567")
          , links := { linkedin := none, behance := none } }
      , education := [⟨str "B.Tech Computer Science, ABC University 2015 2019",
          some (str "2015"), some (str "2019")⟩]
      , work_experience := [⟨some (str "TCS"), none, some (str "Jan"), some [],
          str "Software Engineer at TCS Jan 2020 - Present"⟩]
      , skills := [str "Python", str "SQL"] } := by
  decide

/-! ## Claim C5: find_date_range on an explicit range ending in Present. -/

/-- C5: on `"Jan 2020 - Present"` the explicit range pattern does match, but the code does
not return its two bounds: the `[-to]+` split cuts at the final `t` of `Present` giving
three pieces, and the findall fallback returns the month capture group, so the result is
`(some "Jan", some "")` instead of `(some "Jan 2020", some "Present")`. -/
theorem c5_present_range_actual :
    find_date_range (str "Jan 2020 - Present") = (some (str "Jan"), some []) := by
  decide

/-! ## Claim C6: education year fields. -/

/-- C6: for an education line that yields an entry, two year tokens 2015 then 2019 give
start 2015, end 2019 and displayed years "2015 - 2019"; exactly one token 2020 gives
displayed years "2020"; no token gives absent years. -/
theorem c6_education_years (ln : Chars) (e : EduEntry) (he : eduEntryOf ln = some e) :
    (findallYears ln = [str "2015", str "2019"] →
      e.start_year = some (str "2015") ∧ e.end_year = some (str "2019") ∧
        yearsField e = some (str "2015 - 2019")) ∧
    (findallYears ln = [str "2020"] →
      e.start_year = none ∧ yearsField e = some (str "2020")) ∧
    (findallYears ln = [] →
      e.start_year = none ∧ e.end_year = none ∧ yearsField e = none) := by
  refine ⟨fun hy => ?_, fun hy => ?_, fun hy => ?_⟩
  · rw [eduEntryOf, hy] at he
    simp only [List.isEmpty_cons, Bool.not_false, Bool.or_true, if_true,
      Option.some_inj] at he
    rw [← he]
    exact ⟨rfl, rfl, rfl⟩
  · rw [eduEntryOf, hy] at he
    simp only [List.isEmpty_cons, Bool.not_false, Bool.or_true, if_true,
      Option.some_inj] at he
    rw [← he]
    exact ⟨rfl, rfl⟩
  · rw [eduEntryOf, hy] at he
    simp only [List.isEmpty_nil, Bool.not_true, Bool.or_false] at he
    split at he
    · simp only [Option.some_inj] at he
      rw [← he]
      exact ⟨rfl, rfl, rfl⟩
    · exact absurd he (by simp)

/-- Witness for C6 at a concrete education line with the two year tokens. -/
theorem c6_education_years_witness :
    eduEntryOf (str "B.Tech ABC University 2015 2019") =
      some ⟨str "B.Tech ABC University 2015 2019", some (str "2015"), some (str "2019")⟩ ∧
    yearsField ⟨str "B.Tech ABC University 2015 2019", some (str "2015"), some (str "2019")⟩ =
      some (str "2015 - 2019") :=
  ⟨by decide,
   ((c6_education_years (str "B.Tech ABC University 2015 2019") _ (by decide)).1
      (by decide)).2.2⟩

/-! ## Claim C7: skills de-duplication. -/

/-- C7: the concrete skills-block line keeps both "Python" and "python"; in general the
skills list is exactly the raw token stream with later exact duplicates dropped: it has no
duplicates, it is a subsequence of the raw tokens (first-seen order preserved), and it
keeps exactly the set of raw tokens. -/
theorem c7_skills_dedup :
    parse_skills (str "SKILLS\nPython, SQL, python, Docker") =
      [str "Python", str "SQL", str "python", str "Docker"] ∧
    ∀ t : Chars, (parse_skills t).Nodup ∧ (parse_skills t).Sublist (skillTokens t) ∧
      ∀ x : Chars, x ∈ parse_skills t ↔ x ∈ skillTokens t := by
  refine ⟨by decide, fun t => ⟨dedupGo_nodup _ _, dedupGo_sublist _ _, fun x => ?_⟩⟩
  rw [parse_skills, dedupKeepFirst, dedupGo_mem]
  simp

/-! ## Claim C3: segmenter boundary property. -/

/-- C3 counterexample: for the education segmenter, an input satisfying the claim's
hypotheses (a heading line, middle lines none of which is a terminator, then a terminator
line) whose captured block is not the full list of lines strictly between the boundaries:
the middle line "higher education cert" re-matches the education heading and is dropped. -/
theorem c3_counterexample :
    eduHead (str "EDUCATION") = true ∧
    (∀ l ∈ lits ["B.Sc 2001", "higher education cert", "M.Sc 2003"], eduBreak l = false) ∧
    eduBreak (str "SKILLS") = true ∧
    sectionBlock eduHead eduBreak
        (lits ["EDUCATION", "B.Sc 2001", "higher education cert", "M.Sc 2003", "SKILLS"]) ≠
      lits ["B.Sc 2001", "higher education cert", "M.Sc 2003"] := by
  decide

/-- C3 (amended): for a section with heading predicate isHead and terminator predicate
isBreak, if no line before `h` matches the heading, `h` matches the heading, no line of
`mid` matches the terminator, and `t` matches the terminator but not the heading, then the
captured block is exactly the lines of `mid` that do not themselves re-match the section's
own heading (such lines are consumed as headings and excluded); in particular the block
contains neither `h` nor `t` and lies strictly between them in document order. -/
theorem c3_section_block_between (isHead isBreak : Chars → Bool) (pre : List Chars)
    (h : Chars) (mid : List Chars) (t : Chars) (post : List Chars)
    (hpre : ∀ l ∈ pre, isHead l = false) (hh : isHead h = true)
    (hmid : ∀ l ∈ mid, isBreak l = false) (ht : isBreak t = true) (hth : isHead t = false) :
    sectionBlock isHead isBreak (pre ++ h :: (mid ++ t :: post)) =
      mid.filter (fun l => !isHead l) := by
  rw [sectionBlock, sectionLoop_skip isHead isBreak pre _ hpre, sectionLoop, hh]
  simp only [if_true]
  exact sectionLoop_capture isHead isBreak t post ht hth mid hmid

/-- Witness for C3's amended theorem at a concrete education-section line list. -/
theorem c3_section_block_between_witness :
    sectionBlock eduHead eduBreak
        ([str "intro"] ++ str "EDUCATION" :: ([str "B.Sc 2001"] ++ str "SKILLS" :: [str "rest"])) =
      [str "B.Sc 2001"].filter (fun l => !eduHead l) :=
  c3_section_block_between eduHead eduBreak [str "intro"] (str "EDUCATION") [str "B.Sc 2001"]
    (str "SKILLS") [str "rest"] (by decide) (by decide) (by decide) (by decide) (by decide)

/-! ## Claim C4: experience segment splitting. -/

set_option maxRecDepth 100000 in
/-- C4 counterexample: in "Acme Corp 2019 Developer of things" the only role keyword is
"Developer", yet the text before it is not discarded: it becomes the first entry's detail,
and two entries result rather than one. -/
theorem c4_counterexample :
    (parse_experience (str "Work Experience\nAcme Corp 2019\nDeveloper of things\nSkills")).map
        (fun e => e.details) = [str "Acme Corp 2019", str "Developer of things"] ∧
    (parse_experience (str "Work Experience\nAcme Corp 2019\nDeveloper of things\nSkills")).length
      ≠ 1 := by
  decide

theorem expEntryOf_details (js : List Chars) :
    (js.filterMap expEntryOf).map (fun e => e.details) =
      (js.map stripL).filter (fun s => !s.isEmpty) := by
  induction js with
  | nil => rfl
  | cons j js ih =>
    by_cases hj : (stripL j).isEmpty = true
    · simp [List.filterMap_cons, expEntryOf, hj, ih]
    · simp [List.filterMap_cons, expEntryOf, hj, ih]

/-- C4 (amended): the joined experience text is split immediately before every role-keyword
occurrence; every segment that is nonempty after trimming becomes one entry whose detail is
the trimmed segment text — including the text before the first detected keyword, which is
kept, not discarded; only blank segments (such as the leading empty segment produced when
the section text begins with a keyword) yield no entry. -/
theorem c4_segments_to_entries (t : Chars) :
    (parse_experience t).map (fun e => e.details) =
      ((splitLA splitKws (joinSp (expBlock t))).map stripL).filter (fun s => !s.isEmpty) := by
  rw [parse_experience]
  by_cases hb : (expBlock t).isEmpty = true
  · have hnil : expBlock t = [] := by
      cases hE : expBlock t
      · rfl
      · rw [hE] at hb; cases hb
    rw [hnil]
    decide
  · rw [if_neg hb]
    exact expEntryOf_details _

/-! ## Claim C9: the phone matcher. -/

/-- C9 counterexample: a parenthesized phone number is not matched — the phone pattern has
no parenthesis class and requires at least nine digits, so "(555) 123-4567" (at most seven
consecutive digit-separator repetitions) yields no phone. -/
theorem c9_paren_phone_not_matched :
    (extract_personal_details (str "(555) 123-4567")).phone = none := by
  decide

theorem mem_mSeq {a b : Matcher} {cs : Chars} {n k : Nat}
    (hn : n ∈ a cs) (hk : k ∈ b (cs.drop n)) : n + k ∈ mSeq a b cs := by
  rw [mSeq]
  exact List.mem_flatMap.mpr ⟨n, hn, List.mem_map.mpr ⟨k, hk, rfl⟩⟩

theorem zero_mem_mOpt (a : Matcher) (cs : Chars) : 0 ∈ mOpt a cs := by
  rw [mOpt]
  exact List.mem_append.mpr (Or.inr (List.mem_singleton.mpr rfl))

theorem zero_mem_mRepGo (a : Matcher) (fuel : Nat) (cs : Chars) : 0 ∈ mRepGo a 0 fuel cs := by
  cases fuel with
  | zero => simp [mRepGo]
  | succ f =>
    rw [mRepGo]
    exact List.mem_append.mpr (Or.inr (by simp))

theorem mRepGo_step {a : Matcher} {cs : Chars} {n k lo fuel : Nat}
    (hn : n ∈ a cs) (hn0 : n ≠ 0) (hk : k ∈ mRepGo a (lo - 1) fuel (cs.drop n)) :
    n + k ∈ mRepGo a lo (fuel + 1) cs := by
  rw [mRepGo]
  refine List.mem_append.mpr (Or.inl (List.mem_flatMap.mpr ⟨n, hn, ?_⟩))
  have hne : (n == 0) = false := beq_eq_false_iff_ne.mpr hn0
  rw [hne]
  simp only [Bool.false_eq_true, if_false]
  exact List.mem_map.mpr ⟨k, hk, rfl⟩

theorem phoneGrpM_run (gs : List (Char × Option Char)) :
    ∀ (b : Chars) (lo fuel : Nat), lo ≤ gs.length → gs.length ≤ fuel →
      (∀ g ∈ gs, PhoneGroupOk g) →
      ∃ x, x ∈ mRepGo phoneGrpM lo fuel ((gs.map phoneGroup).flatten ++ b) := by
  induction gs with
  | nil =>
    intro b lo fuel hlo _ _
    have hz : lo = 0 := Nat.le_zero.mp (by simpa using hlo)
    subst hz
    exact ⟨0, zero_mem_mRepGo _ _ _⟩
  | cons g gs ih =>
    intro b lo fuel hlo hfuel hok
    obtain ⟨d, sep⟩ := g
    have hd : d.isDigit = true := (hok (d, sep) (List.mem_cons_self _ _)).1
    cases fuel with
    | zero => exact absurd hfuel (by simp)
    | succ f =>
      have hrest : gs.length ≤ f := by simpa using hfuel
      have hlo' : lo - 1 ≤ gs.length := by
        have := hlo
        simp only [List.length_cons] at this
        omega
      have hokrest : ∀ g ∈ gs, PhoneGroupOk g :=
        fun g hg => hok g (List.mem_cons_of_mem _ hg)
      obtain ⟨x, hx⟩ := ih b (lo - 1) f hlo' hrest hokrest
      cases sep with
      | none =>
        have hshape : (((d, (none : Option Char)) :: gs).map phoneGroup).flatten ++ b =
            d :: ((gs.map phoneGroup).flatten ++ b) := by
          simp [phoneGroup]
        rw [hshape]
        have hn : (1 : Nat) ∈ phoneGrpM (d :: ((gs.map phoneGroup).flatten ++ b)) := by
          have h1 : (1 : Nat) ∈ mCls Char.isDigit (d :: ((gs.map phoneGroup).flatten ++ b)) := by
            simp [mCls, hd]
          have h0 : (0 : Nat) ∈ mOpt (mCls phoneSepC)
              ((d :: ((gs.map phoneGroup).flatten ++ b)).drop 1) := zero_mem_mOpt _ _
          simpa [phoneGrpM] using mem_mSeq h1 h0
        refine ⟨1 + x, mRepGo_step hn (by omega) ?_⟩
        simpa using hx
      | some s =>
        have hs : phoneSepC s = true := by
          have := (hok (d, some s) (List.mem_cons_self _ _)).2
          simpa [Option.all] using this
        have hshape : (((d, some s) :: gs).map phoneGroup).flatten ++ b =
            d :: s :: ((gs.map phoneGroup).flatten ++ b) := by
          simp [phoneGroup]
        rw [hshape]
        have hn : (2 : Nat) ∈ phoneGrpM (d :: s :: ((gs.map phoneGroup).flatten ++ b)) := by
          have h1 : (1 : Nat) ∈ mCls Char.isDigit
              (d :: s :: ((gs.map phoneGroup).flatten ++ b)) := by
            simp [mCls, hd]
          have h2 : (1 : Nat) ∈ mOpt (mCls phoneSepC)
              ((d :: s :: ((gs.map phoneGroup).flatten ++ b)).drop 1) := by
            rw [mOpt]
            refine List.mem_append.mpr (Or.inl ?_)
            simp [mCls, hs]
          have := mem_mSeq h1 h2
          simpa [phoneGrpM] using this
        refine ⟨2 + x, mRepGo_step hn (by omega) ?_⟩
        simpa using hx

theorem searchGo_head (m : Matcher) (cs : Chars) (i : Nat) {n : Nat} {tl : List Nat}
    (h : m cs = n :: tl) : searchGo m cs i = some (i, n) := by
  cases cs with
  | nil => rw [searchGo, h]
  | cons c rest => rw [searchGo, h]

theorem searchGo_isSome (m : Matcher) :
    ∀ (cs : Chars) (i : Nat), (∃ j, m (cs.drop j) ≠ []) → (searchGo m cs i).isSome = true := by
  intro cs
  induction cs with
  | nil =>
    intro i hj
    obtain ⟨j, hne⟩ := hj
    rw [List.drop_nil] at hne
    rw [searchGo]
    cases hm : m [] with
    | nil => exact absurd hm hne
    | cons n tl => rfl
  | cons c rest ih =>
    intro i hj
    rw [searchGo]
    cases hm : m (c :: rest) with
    | cons n tl => rfl
    | nil =>
      obtain ⟨j, hne⟩ := hj
      cases j with
      | zero =>
        rw [List.drop_zero] at hne
        exact absurd hm hne
      | succ j' =>
        rw [List.drop_succ_cons] at hne
        exact ih (i + 1) ⟨j', hne⟩

set_option maxRecDepth 2000 in
/-- C9 (amended): the phone matcher requires a run of at least nine digit repetitions, each
digit optionally followed by one whitespace-or-hyphen separator, optionally prefixed by a
plus-and-country-code; parentheses are not in any of its classes.  Any text containing such
a digit run yields a phone match; a parenthesized number such as "(555) 123-4567" does not. -/
theorem c9_phone_digit_run_matched (t a b : Chars) (gs : List (Char × Option Char))
    (hsplit : t = a ++ ((gs.map phoneGroup).flatten ++ b)) (hlen : 9 ≤ gs.length)
    (hok : ∀ g ∈ gs, PhoneGroupOk g) :
    (extract_personal_details t).phone.isSome = true := by
  have hshape : ((gs.take 9).map phoneGroup).flatten ++ (((gs.drop 9).map phoneGroup).flatten ++ b)
      = (gs.map phoneGroup).flatten ++ b := by
    rw [← List.append_assoc, ← List.flatten_append, ← List.map_append, List.take_append_drop]
  have hok9 : ∀ g ∈ gs.take 9, PhoneGroupOk g :=
    fun g hg => hok g (List.mem_of_mem_take hg)
  have hlen9 : (gs.take 9).length = 9 := by
    rw [List.length_take]
    omega
  obtain ⟨x, hx⟩ := phoneGrpM_run (gs.take 9) (((gs.drop 9).map phoneGroup).flatten ++ b)
    9 12 (by omega) (by omega) hok9
  rw [hshape] at hx
  have hmem : (0 + x) ∈ phoneM ((gs.map phoneGroup).flatten ++ b) := by
    refine mem_mSeq (zero_mem_mOpt _ _) ?_
    simpa [mRep] using hx
  have hne : phoneM ((gs.map phoneGroup).flatten ++ b) ≠ [] := List.ne_nil_of_mem hmem
  have hsome := searchGo_isSome phoneM (a ++ ((gs.map phoneGroup).flatten ++ b)) 0
    ⟨a.length, by rw [List.drop_left]; exact hne⟩
  subst hsplit
  show ((searchStr phoneM _).map stripL).isSome = true
  rw [searchStr, reSearch]
  cases hgo : searchGo phoneM (a ++ ((gs.map phoneGroup).flatten ++ b)) 0 with
  | none => rw [hgo] at hsome; simp at hsome
  | some r => rfl

/-- Witness for C9's amended theorem at a concrete nine-digit run. -/
theorem c9_phone_digit_run_matched_witness :
    (extract_personal_details (str "call 123-456-789 now")).phone.isSome = true :=
  c9_phone_digit_run_matched (str "call 123-456-789 now") (str "call ") (str " now")
    [('1', none), ('2', none), ('3', some '-'), ('4', none), ('5', none), ('6', some '-'),
     ('7', none), ('8', none), ('9', none)] (by decide) (by decide) (by decide)

/-! ## Claim C10: the role field never equals "Software Engineer". -/

theorem ciPre_length {p cs : Chars} (h : ciPre p cs = true) : p.length ≤ cs.length := by
  induction p generalizing cs with
  | nil => simp
  | cons a p ih =>
    cases cs with
    | nil => rw [ciPre] at h; cases h
    | cons c cs =>
      rw [ciPre, Bool.and_eq_true] at h
      simpa using Nat.succ_le_succ (ih h.2)

theorem searchGo_inv (m : Matcher) :
    ∀ (cs : Chars) (i0 i n : Nat), searchGo m cs i0 = some (i, n) →
      i0 ≤ i ∧ ∃ tl, m (cs.drop (i - i0)) = n :: tl := by
  intro cs
  induction cs with
  | nil =>
    intro i0 i n h
    rw [searchGo] at h
    cases hm : m [] with
    | nil => rw [hm] at h; cases h
    | cons a tl =>
      rw [hm] at h
      simp only [Option.some.injEq, Prod.mk.injEq] at h
      obtain ⟨rfl, rfl⟩ := h
      exact ⟨Nat.le_refl _, tl, by simpa using hm⟩
  | cons c rest ih =>
    intro i0 i n h
    rw [searchGo] at h
    cases hm : m (c :: rest) with
    | cons a tl =>
      rw [hm] at h
      simp only [Option.some.injEq, Prod.mk.injEq] at h
      obtain ⟨rfl, rfl⟩ := h
      exact ⟨Nat.le_refl _, tl, by simpa [Nat.sub_self] using hm⟩
    | nil =>
      rw [hm] at h
      obtain ⟨hle, tl, hj⟩ := ih (i0 + 1) i n h
      refine ⟨by omega, tl, ?_⟩
      have hstep : i - i0 = (i - (i0 + 1)) + 1 := by omega
      rw [hstep, List.drop_succ_cons]
      exact hj

theorem roleM_length {cs : Chars} {n : Nat} (h : n ∈ roleM cs) :
    n ≤ cs.length ∧ ¬ n = 17 := by
  rw [roleM, mAltL] at h
  simp only [List.mem_flatMap, List.mem_map] at h
  obtain ⟨m, ⟨l, hl, rfl⟩, hn⟩ := h
  rw [mLit] at hn
  simp only [if_true] at hn
  by_cases hp : ciPre l cs = true
  · rw [if_pos hp] at hn
    simp only [List.mem_singleton] at hn
    subst hn
    have hle := ciPre_length hp
    fin_cases hl <;> exact ⟨hle, by decide⟩
  · rw [if_neg hp] at hn
    cases hn

/-- C10: no experience entry ever carries role "Software Engineer": although the keyword is
in the segmentation vocabulary, the role pattern's alternatives have lengths 15, 15, 14,
16, 9 and 7, and the text of a role match always has the length of its alternative, never
the 17 characters of "Software Engineer". -/
theorem c10_no_software_engineer_role (t : Chars) (e : ExpEntry)
    (he : e ∈ parse_experience t) : e.role ≠ some (str "Software Engineer") := by
  intro hrole
  rw [parse_experience] at he
  by_cases hb : (expBlock t).isEmpty = true
  · rw [if_pos hb] at he
    cases he
  · rw [if_neg hb] at he
    obtain ⟨job, _, hof⟩ := List.mem_filterMap.mp he
    rw [expEntryOf] at hof
    by_cases hj : (stripL job).isEmpty = true
    · rw [if_pos hj] at hof
      cases hof
    · rw [if_neg hj] at hof
      simp only [Option.some.injEq] at hof
      have hr : searchStr roleM (stripL job) = some (str "Software Engineer") := by
        rw [← hof] at hrole
        exact hrole
      rw [searchStr] at hr
      cases hs : reSearch roleM (stripL job) with
      | none => rw [hs] at hr; cases hr
      | some r =>
        obtain ⟨i, n⟩ := r
        rw [hs] at hr
        simp only [Option.map_some', Option.some.injEq] at hr
        obtain ⟨-, tl, hm⟩ := searchGo_inv roleM (stripL job) 0 i n hs
        have hmem : n ∈ roleM ((stripL job).drop (i - 0)) := by
          rw [hm]
          exact List.mem_cons_self _ _
        rw [Nat.sub_zero] at hmem
        obtain ⟨hle, hne⟩ := roleM_length hmem
        have hlen : (((stripL job).drop i).take n).length = (str "Software Engineer").length := by
          rw [show ((stripL job).drop i).take n = extractM (stripL job) (i, n) from rfl, hr]
        rw [List.length_take] at hlen
        have h17 : (str "Software Engineer").length = 17 := by decide
        rw [h17] at hlen
        have hn17 : n = 17 := by omega
        exact hne hn17

/-- Witness for C10 at a concrete experience entry of a concrete text. -/
theorem c10_no_software_engineer_role_witness :
    (⟨none, some (str "Developer"), none, none, str "Developer of things"⟩ : ExpEntry).role ≠
      some (str "Software Engineer") :=
  c10_no_software_engineer_role
    (str "Work Experience\nAcme Corp 2019\nDeveloper of things\nSkills") _ (by decide)

/-! ## Claim C8: idempotence of the normalizer. -/

theorem mem_replaceOne {c k : Char} {v : Chars} :
    ∀ {cs : Chars}, c ∈ replaceOne k v cs → (c ∈ cs ∧ ¬ c = k) ∨ c ∈ v := by
  intro cs
  induction cs with
  | nil => intro h; cases h
  | cons a cs ih =>
    intro h
    rw [replaceOne, List.flatMap_cons] at h
    rcases List.mem_append.mp h with h1 | h2
    · by_cases hak : (a == k) = true
      · rw [if_pos hak] at h1
        exact Or.inr h1
      · rw [if_neg hak] at h1
        have hca : c = a := List.mem_singleton.mp h1
        subst hca
        refine Or.inl ⟨List.mem_cons_self _ _, fun hck => hak ?_⟩
        simp [hck]
    · rcases ih h2 with ⟨h3, h4⟩ | h5
      · exact Or.inl ⟨List.mem_cons_of_mem _ h3, h4⟩
      · exact Or.inr h5

theorem replaceOne_id {k : Char} {v : Chars} :
    ∀ {cs : Chars}, k ∉ cs → replaceOne k v cs = cs := by
  intro cs
  induction cs with
  | nil => intro _; rfl
  | cons a cs ih =>
    intro h
    have hak : ¬ a = k := fun he => h (by rw [← he]; exact List.mem_cons_self a cs)
    have hakb : (a == k) = false := beq_eq_false_iff_ne.mpr hak
    rw [replaceOne, List.flatMap_cons, hakb]
    simp only [Bool.false_eq_true, if_false, List.singleton_append, List.cons.injEq,
      true_and]
    exact ih (fun hm => h (List.mem_cons_of_mem a hm))

theorem applyList_not_mem {x : Char} :
    ∀ (ps : List (Char × Chars)) (cs : Chars), x ∉ cs → (∀ q ∈ ps, x ∉ q.2) →
      x ∉ applyList ps cs := by
  intro ps
  induction ps with
  | nil => intro cs h _ hm; exact h hm
  | cons p ps ih =>
    intro cs h hq hm
    obtain ⟨k, v⟩ := p
    rw [applyList] at hm
    refine ih (replaceOne k v cs) (fun hmem => ?_)
      (fun q hqq => hq q (List.mem_cons_of_mem _ hqq)) hm
    rcases mem_replaceOne hmem with ⟨h1, _⟩ | h2
    · exact h h1
    · exact hq (k, v) (List.mem_cons_self _ _) h2

theorem applyList_no_key :
    ∀ (ps : List (Char × Chars)) (cs : Chars), (∀ p ∈ ps, ∀ q ∈ ps, p.1 ∉ q.2) →
      ∀ p ∈ ps, p.1 ∉ applyList ps cs := by
  intro ps
  induction ps with
  | nil => intro cs _ p hp; cases hp
  | cons q ps ih =>
    intro cs hgood p hp
    obtain ⟨k, v⟩ := q
    rw [applyList]
    rcases List.mem_cons.mp hp with rfl | hp'
    · refine applyList_not_mem ps (replaceOne k v cs) (fun hm => ?_)
        (fun q2 hq2 => hgood (k, v) (List.mem_cons_self _ _) q2 (List.mem_cons_of_mem _ hq2))
      rcases mem_replaceOne hm with ⟨_, hne⟩ | hv
      · exact hne rfl
      · exact hgood (k, v) (List.mem_cons_self _ _) (k, v) (List.mem_cons_self _ _) hv
    · exact ih (replaceOne k v cs)
        (fun a ha b hb => hgood a (List.mem_cons_of_mem _ ha) b (List.mem_cons_of_mem _ hb))
        p hp'

theorem applyList_id :
    ∀ (ps : List (Char × Chars)) (cs : Chars), (∀ p ∈ ps, p.1 ∉ cs) →
      applyList ps cs = cs := by
  intro ps
  induction ps with
  | nil => intro cs _; rfl
  | cons q ps ih =>
    intro cs h
    obtain ⟨k, v⟩ := q
    rw [applyList, replaceOne_id (h (k, v) (List.mem_cons_self _ _))]
    exact ih cs (fun p hp => h p (List.mem_cons_of_mem _ hp))

theorem spacesOkGo_collapseSpGo : ∀ (cs : Chars) (b : Bool),
    spacesOkGo b (collapseSpGo b cs) = true := by
  intro cs
  induction cs with
  | nil => intro b; rfl
  | cons c cs ih =>
    intro b
    by_cases hc : isHWS c = true
    · rw [collapseSpGo, if_pos hc]
      cases b with
      | true =>
        simp only [if_true]
        exact ih true
      | false =>
        simp only [Bool.false_eq_true, if_false]
        rw [spacesOkGo]
        simp only [show ((' ' : Char) == '\t') = false from rfl, Bool.false_eq_true, if_false,
          show ((' ' : Char) == ' ') = true from rfl, if_true]
        exact ih true
    · rw [collapseSpGo, if_neg hc]
      simp only [isHWS, Bool.or_eq_true, not_or] at hc
      rw [spacesOkGo]
      simp only [Bool.not_eq_true] at hc
      rw [hc.2, hc.1]
      simp only [Bool.false_eq_true, if_false]
      exact ih false

theorem collapseSpGo_id : ∀ (cs : Chars) (b : Bool),
    spacesOkGo b cs = true → collapseSpGo b cs = cs := by
  intro cs
  induction cs with
  | nil => intro b _; rfl
  | cons c cs ih =>
    intro b h
    rw [spacesOkGo] at h
    by_cases ht : (c == '\t') = true
    · rw [if_pos ht] at h
      cases h
    · rw [if_neg ht] at h
      by_cases hs : (c == ' ') = true
      · rw [if_pos hs] at h
        cases b with
        | true =>
          rw [if_pos rfl] at h
          cases h
        | false =>
          rw [if_neg (by simp)] at h
          have hceq : c = ' ' := by simpa using hs
          have hhws : isHWS c = true := by rw [hceq]; rfl
          rw [collapseSpGo, if_pos hhws]
          simp only [Bool.false_eq_true, if_false]
          rw [ih true h, hceq]
      · rw [if_neg hs] at h
        have hsb : (c == ' ') = false := by simpa using hs
        have htb : (c == '\t') = false := by simpa using ht
        have hhws : isHWS c = false := by
          rw [isHWS, hsb, htb]
          rfl
        rw [collapseSpGo, if_neg (by simp [hhws]), ih false h]

theorem nlOkGo_collapseNLGo : ∀ (cs : Chars) (k : Nat),
    nlOkGo (min k 2) (collapseNLGo k cs) = true := by
  intro cs
  induction cs with
  | nil => intro k; rfl
  | cons c cs ih =>
    intro k
    by_cases hc : (c == '\n') = true
    · rw [collapseNLGo, if_pos hc]
      by_cases hk : k < 2
      · rw [if_pos hk, nlOkGo]
        simp only [show (('\n' : Char) == '\n') = true from rfl, if_true]
        rw [if_neg (by omega)]
        have hmin : min k 2 + 1 = min (k + 1) 2 := by omega
        rw [hmin]
        exact ih (k + 1)
      · rw [if_neg hk]
        have hmin : min k 2 = 2 := by omega
        have hmin2 : min (k + 1) 2 = 2 := by omega
        rw [hmin, ← hmin2]
        exact ih (k + 1)
    · rw [collapseNLGo, if_neg hc, nlOkGo, if_neg (by simp [hc])]
      have hmin : (0 : Nat) = min 0 2 := rfl
      rw [hmin]
      exact ih 0

theorem collapseNLGo_id : ∀ (cs : Chars) (k : Nat),
    nlOkGo k cs = true → collapseNLGo k cs = cs := by
  intro cs
  induction cs with
  | nil => intro k _; rfl
  | cons c cs ih =>
    intro k h
    rw [nlOkGo] at h
    by_cases hc : (c == '\n') = true
    · rw [if_pos hc] at h
      by_cases hk : 2 ≤ k
      · rw [if_pos hk] at h
        cases h
      · rw [if_neg hk] at h
        have hceq : c = '\n' := by simpa using hc
        rw [collapseNLGo, if_pos hc, if_pos (by omega), ih (k + 1) h, hceq]
    · rw [if_neg hc] at h
      rw [collapseNLGo, if_neg hc, ih 0 h]

theorem spacesOkGo_collapseNLGo : ∀ (cs : Chars) (k : Nat) (b : Bool),
    spacesOkGo b cs = true → (0 < k → b = false) →
      spacesOkGo b (collapseNLGo k cs) = true := by
  intro cs
  induction cs with
  | nil => intro k b _ _; rfl
  | cons c cs ih =>
    intro k b h hb
    by_cases hc : (c == '\n') = true
    · have hceq : c = '\n' := by simpa using hc
      subst hceq
      rw [spacesOkGo] at h
      simp only [show (('\n' : Char) == '\t') = false from rfl,
        show (('\n' : Char) == ' ') = false from rfl, Bool.false_eq_true, if_false] at h
      rw [collapseNLGo, if_pos hc]
      by_cases hk : k < 2
      · rw [if_pos hk, spacesOkGo]
        simp only [show (('\n' : Char) == '\t') = false from rfl,
          show (('\n' : Char) == ' ') = false from rfl, Bool.false_eq_true, if_false]
        exact ih (k + 1) false h (fun _ => rfl)
      · rw [if_neg hk]
        have hbf : b = false := hb (by omega)
        subst hbf
        exact ih (k + 1) false h (fun _ => rfl)
    · rw [collapseNLGo, if_neg hc]
      rw [spacesOkGo] at h
      rw [spacesOkGo]
      by_cases ht : (c == '\t') = true
      · rw [if_pos ht] at h
        cases h
      · rw [if_neg ht] at h
        rw [if_neg ht]
        by_cases hs : (c == ' ') = true
        · rw [if_pos hs] at h
          rw [if_pos hs]
          cases b with
          | true =>
            rw [if_pos rfl] at h
            cases h
          | false =>
            rw [if_neg (by simp)] at h
            rw [if_neg (by simp)]
            exact ih 0 true h (by omega)
        · rw [if_neg hs] at h
          rw [if_neg hs]
          exact ih 0 false h (by omega)

theorem spacesOkGo_false_of_true : ∀ {cs : Chars},
    spacesOkGo true cs = true → spacesOkGo false cs = true := by
  intro cs
  cases cs with
  | nil => intro _; rfl
  | cons c cs =>
    intro h
    rw [spacesOkGo] at h
    rw [spacesOkGo]
    by_cases ht : (c == '\t') = true
    · rw [if_pos ht] at h
      cases h
    · rw [if_neg ht] at h
      rw [if_neg ht]
      by_cases hs : (c == ' ') = true
      · rw [if_pos hs, if_pos rfl] at h
        cases h
      · rw [if_neg hs] at h
        rw [if_neg hs]
        exact h

theorem spacesOkGo_append_right : ∀ (l1 : Chars) {l2 : Chars} {b : Bool},
    spacesOkGo b (l1 ++ l2) = true → spacesOkGo false l2 = true := by
  intro l1
  induction l1 with
  | nil =>
    intro l2 b h
    cases b with
    | true => exact spacesOkGo_false_of_true h
    | false => exact h
  | cons c l1 ih =>
    intro l2 b h
    rw [List.cons_append, spacesOkGo] at h
    by_cases ht : (c == '\t') = true
    · rw [if_pos ht] at h
      cases h
    · rw [if_neg ht] at h
      by_cases hs : (c == ' ') = true
      · rw [if_pos hs] at h
        cases b with
        | true => rw [if_pos rfl] at h; cases h
        | false =>
          rw [if_neg (by simp)] at h
          exact ih h
      · rw [if_neg hs] at h
        exact ih h

theorem spacesOkGo_append_left : ∀ (l1 : Chars) {l2 : Chars} {b : Bool},
    spacesOkGo b (l1 ++ l2) = true → spacesOkGo b l1 = true := by
  intro l1
  induction l1 with
  | nil => intro l2 b _; rfl
  | cons c l1 ih =>
    intro l2 b h
    rw [List.cons_append, spacesOkGo] at h
    rw [spacesOkGo]
    by_cases ht : (c == '\t') = true
    · rw [if_pos ht] at h
      cases h
    · rw [if_neg ht] at h
      rw [if_neg ht]
      by_cases hs : (c == ' ') = true
      · rw [if_pos hs] at h
        rw [if_pos hs]
        cases b with
        | true => rw [if_pos rfl] at h; cases h
        | false =>
          rw [if_neg (by simp)] at h
          rw [if_neg (by simp)]
          exact ih h
      · rw [if_neg hs] at h
        rw [if_neg hs]
        exact ih h

theorem nlOkGo_mono : ∀ (l : Chars) {j k : Nat}, j ≤ k → nlOkGo k l = true →
    nlOkGo j l = true := by
  intro l
  induction l with
  | nil => intro j k _ _; rfl
  | cons c l ih =>
    intro j k hjk h
    rw [nlOkGo] at h
    rw [nlOkGo]
    by_cases hc : (c == '\n') = true
    · rw [if_pos hc] at h
      rw [if_pos hc]
      by_cases hk : 2 ≤ k
      · rw [if_pos hk] at h
        cases h
      · rw [if_neg hk] at h
        rw [if_neg (by omega)]
        exact ih (by omega) h
    · rw [if_neg hc] at h
      rw [if_neg hc]
      exact ih (Nat.le_refl 0) h

theorem nlOkGo_append_right : ∀ (l1 : Chars) {l2 : Chars} {k : Nat},
    nlOkGo k (l1 ++ l2) = true → nlOkGo 0 l2 = true := by
  intro l1
  induction l1 with
  | nil =>
    intro l2 k h
    exact nlOkGo_mono l2 (Nat.zero_le k) h
  | cons c l1 ih =>
    intro l2 k h
    rw [List.cons_append, nlOkGo] at h
    by_cases hc : (c == '\n') = true
    · rw [if_pos hc] at h
      by_cases hk : 2 ≤ k
      · rw [if_pos hk] at h
        cases h
      · rw [if_neg hk] at h
        exact ih h
    · rw [if_neg hc] at h
      exact ih h

theorem nlOkGo_append_left : ∀ (l1 : Chars) {l2 : Chars} {k : Nat},
    nlOkGo k (l1 ++ l2) = true → nlOkGo k l1 = true := by
  intro l1
  induction l1 with
  | nil => intro l2 k _; rfl
  | cons c l1 ih =>
    intro l2 k h
    rw [List.cons_append, nlOkGo] at h
    rw [nlOkGo]
    by_cases hc : (c == '\n') = true
    · rw [if_pos hc] at h
      rw [if_pos hc]
      by_cases hk : 2 ≤ k
      · rw [if_pos hk] at h
        cases h
      · rw [if_neg hk] at h
        rw [if_neg hk]
        exact ih h
    · rw [if_neg hc] at h
      rw [if_neg hc]
      exact ih h

theorem lstripL_suffix_decomp (cs : Chars) : ∃ u, cs = u ++ lstripL cs := by
  obtain ⟨u, hu⟩ := List.dropWhile_suffix (l := cs) isPyWS
  exact ⟨u, hu.symm⟩

theorem rstripL_prefix_decomp (cs : Chars) : ∃ v, cs = rstripL cs ++ v := by
  obtain ⟨u, hu⟩ := List.dropWhile_suffix (l := cs.reverse) isPyWS
  refine ⟨u.reverse, ?_⟩
  have h2 := congrArg List.reverse hu
  rw [List.reverse_append, List.reverse_reverse] at h2
  rw [rstripL]
  exact h2.symm

theorem spacesOk_stripL {cs : Chars} (h : spacesOkGo false cs = true) :
    spacesOkGo false (stripL cs) = true := by
  obtain ⟨u, hu⟩ := lstripL_suffix_decomp cs
  rw [hu] at h
  have h1 : spacesOkGo false (lstripL cs) = true := spacesOkGo_append_right u h
  obtain ⟨v, hv⟩ := rstripL_prefix_decomp (lstripL cs)
  rw [hv] at h1
  exact spacesOkGo_append_left _ h1

theorem nlOk_stripL {cs : Chars} (h : nlOkGo 0 cs = true) :
    nlOkGo 0 (stripL cs) = true := by
  obtain ⟨u, hu⟩ := lstripL_suffix_decomp cs
  rw [hu] at h
  have h1 : nlOkGo 0 (lstripL cs) = true := nlOkGo_append_right u h
  obtain ⟨v, hv⟩ := rstripL_prefix_decomp (lstripL cs)
  rw [hv] at h1
  exact nlOkGo_append_left _ h1

theorem dropWhile_idem (p : Char → Bool) (cs : Chars) :
    (cs.dropWhile p).dropWhile p = cs.dropWhile p := by
  induction cs with
  | nil => rfl
  | cons c cs ih =>
    rw [List.dropWhile_cons]
    by_cases hc : p c = true
    · rw [if_pos hc]
      exact ih
    · rw [if_neg hc, List.dropWhile_cons, if_neg hc]

theorem rstripL_idem (u : Chars) : rstripL (rstripL u) = rstripL u := by
  rw [rstripL, rstripL, List.reverse_reverse, dropWhile_idem]

theorem mem_collapseSpGo {c : Char} : ∀ {cs : Chars} {b : Bool},
    c ∈ collapseSpGo b cs → c ∈ cs ∨ c = ' ' := by
  intro cs
  induction cs with
  | nil => intro b h; cases h
  | cons a cs ih =>
    intro b h
    rw [collapseSpGo] at h
    by_cases ha : isHWS a = true
    · rw [if_pos ha] at h
      cases b with
      | true =>
        simp only [if_true] at h
        rcases ih h with h1 | h2
        · exact Or.inl (List.mem_cons_of_mem _ h1)
        · exact Or.inr h2
      | false =>
        simp only [Bool.false_eq_true, if_false] at h
        rcases List.mem_cons.mp h with h1 | h1
        · exact Or.inr h1
        · rcases ih h1 with h2 | h2
          · exact Or.inl (List.mem_cons_of_mem _ h2)
          · exact Or.inr h2
    · rw [if_neg ha] at h
      rcases List.mem_cons.mp h with h1 | h1
      · exact Or.inl (by rw [h1]; exact List.mem_cons_self _ _)
      · rcases ih h1 with h2 | h2
        · exact Or.inl (List.mem_cons_of_mem _ h2)
        · exact Or.inr h2

theorem mem_collapseNLGo {c : Char} : ∀ {cs : Chars} {k : Nat},
    c ∈ collapseNLGo k cs → c ∈ cs := by
  intro cs
  induction cs with
  | nil => intro k h; cases h
  | cons a cs ih =>
    intro k h
    rw [collapseNLGo] at h
    by_cases ha : (a == '\n') = true
    · rw [if_pos ha] at h
      by_cases hk : k < 2
      · rw [if_pos hk] at h
        rcases List.mem_cons.mp h with h1 | h1
        · have : a = '\n' := by simpa using ha
          rw [h1, ← this]
          exact List.mem_cons_self _ _
        · exact List.mem_cons_of_mem _ (ih h1)
      · rw [if_neg hk] at h
        exact List.mem_cons_of_mem _ (ih h)
    · rw [if_neg ha] at h
      rcases List.mem_cons.mp h with h1 | h1
      · rw [h1]
        exact List.mem_cons_self _ _
      · exact List.mem_cons_of_mem _ (ih h1)

theorem mem_stripL {c : Char} {cs : Chars} (h : c ∈ stripL cs) : c ∈ cs := by
  obtain ⟨u, hu⟩ := lstripL_suffix_decomp cs
  obtain ⟨v, hv⟩ := rstripL_prefix_decomp (lstripL cs)
  rw [hu, hv]
  rw [stripL] at h
  exact List.mem_append.mpr (Or.inr (List.mem_append.mpr (Or.inl h)))

theorem stripL_idem (cs : Chars) : stripL (stripL cs) = stripL cs := by
  rw [stripL, stripL]
  have hl : lstripL (rstripL (lstripL cs)) = rstripL (lstripL cs) := by
    have du : (lstripL cs).dropWhile isPyWS = lstripL cs := dropWhile_idem isPyWS cs
    obtain ⟨v, hv⟩ := rstripL_prefix_decomp (lstripL cs)
    cases hr : rstripL (lstripL cs) with
    | nil => rfl
    | cons a w =>
      have hpa : isPyWS a = false := by
        by_cases hpa' : isPyWS a = true
        · exfalso
          rw [hv, hr, List.cons_append, List.dropWhile_cons, if_pos hpa'] at du
          have hlen := congrArg List.length du
          have hle := ((List.dropWhile_suffix (l := w ++ v) isPyWS).sublist).length_le
          simp only [List.length_cons, List.length_append] at hlen hle
          omega
        · cases hq : isPyWS a
          · rfl
          · exact absurd hq hpa'
      rw [lstripL, List.dropWhile_cons, if_neg (by simp [hpa])]
  rw [hl]
  exact rstripL_idem (lstripL cs)

/-- The identity of the glyph pass on key-free text. -/
theorem applyRepls_id {cs : Chars} (h : ∀ p ∈ repls, p.1 ∉ cs) : applyRepls cs = cs :=
  applyList_id repls cs h

/-- C8: the normalization of extract_text_from_pdf is idempotent: each pass leaves no
substitution-table key, no tab, no adjacent horizontal whitespace, no newline run of three
or more, and no leading or trailing whitespace, and on such text every normalization stage
is the identity. -/
theorem c8_normalize_idempotent (x : Chars) : normalize (normalize x) = normalize x := by
  have hgood : ∀ p ∈ repls, ∀ q ∈ repls, p.1 ∉ q.2 := by decide
  have hnotsp : ∀ p ∈ repls, ¬ p.1 = ' ' := by decide
  have hk1 : ∀ p ∈ repls, p.1 ∉ applyRepls x :=
    fun p hp => applyList_no_key repls x hgood p hp
  have hk2 : ∀ p ∈ repls, p.1 ∉ collapseSp (applyRepls x) := by
    intro p hp hmem
    rcases mem_collapseSpGo hmem with h | h
    · exact hk1 p hp h
    · exact hnotsp p hp h
  have hk3 : ∀ p ∈ repls, p.1 ∉ collapseNL (collapseSp (applyRepls x)) :=
    fun p hp hm => hk2 p hp (mem_collapseNLGo hm)
  have hk4 : ∀ p ∈ repls, p.1 ∉ normalize x :=
    fun p hp hm => hk3 p hp (mem_stripL hm)
  have hsp1 : spacesOkGo false (collapseSp (applyRepls x)) = true :=
    spacesOkGo_collapseSpGo (applyRepls x) false
  have hsp2 : spacesOkGo false (collapseNL (collapseSp (applyRepls x))) = true :=
    spacesOkGo_collapseNLGo _ 0 false hsp1 (fun h => absurd h (Nat.lt_irrefl 0))
  have hsp3 : spacesOkGo false (normalize x) = true := spacesOk_stripL hsp2
  have hnl1 : nlOkGo 0 (collapseNL (collapseSp (applyRepls x))) = true := by
    have h := nlOkGo_collapseNLGo (collapseSp (applyRepls x)) 0
    simpa using h
  have hnl2 : nlOkGo 0 (normalize x) = true := nlOk_stripL hnl1
  show stripL (collapseNL (collapseSp (applyRepls (normalize x)))) = normalize x
  rw [applyRepls_id hk4]
  rw [show collapseSp (normalize x) = normalize x from collapseSpGo_id (normalize x) false hsp3]
  rw [show collapseNL (normalize x) = normalize x from collapseNLGo_id (normalize x) 0 hnl2]
  exact stripL_idem (collapseNL (collapseSp (applyRepls x)))

end Resume
